import Mathlib

/-!
Verification of the nbodykit catalog column-graph core against its
specification.

The repository slice at hand contains the file-catalog adapter
(nbodykit/source/catalog/file.py) together with the test suites of the
catalog core (nbodykit/base/catalog.py) and of the transform module; the
catalog core itself is not part of the slice.  Definitions below that embed
the adapter are translated directly from file.py; the remaining
definitions model the catalog core from the specification, and each such
definition says so in its doc comment.

Conventions of the embedding:
* column element values are Int (the numeric payload of one row);
* a lazy dask array over the local rows is an expression tree Expr whose
  evaluation at a row index may fail (Option), matching the deferred,
  per-row failure semantics of compute();
* a Python exception is a returned Except error kind or a none result.
-/

/-- Modelled from the spec: a virtual-column expression snapshot
(section 4.1 ColumnGraph).  A Virtual definition stores fully resolved
operand definitions, never column names, so the type has constructors for
hard leaves and operators only; self-containedness (no live reference back
to the name table) holds by construction.  The domainT constructor stands
for a collaborator domain transform that fails on negative input (the
SkyToCartesian-style transform of the tests). -/
inductive Expr where
  | hard (data : List Int)
  | add (a b : Expr)
  | scale (k : Int) (e : Expr)
  | domainT (e : Expr)
deriving DecidableEq, Repr

/-- Modelled from the spec: evaluating a column expression at one local
row index.  A none result models the exception a domain transform raises
on the rows actually materialized; hard leaves read their backing data. -/
def evalRow : Expr → Nat → Option Int
  | .hard d, i => d[i]?
  | .add a b, i =>
    match evalRow a i, evalRow b i with
    | some x, some y => some (x + y)
    | _, _ => none
  | .scale k e, i =>
    match evalRow e i with
    | some x => some (k * x)
    | none => none
  | .domainT e, i =>
    match evalRow e i with
    | some x => if 0 ≤ x then some (x * x) else none
    | none => none

/-- Modelled from the spec: materializing a column over an explicit list of
selected row indices; only the listed rows are ever evaluated, which is the
laziness contract of section 7 (unselected rows are never computed). -/
def evalRows (e : Expr) : List Nat → Option (List Int)
  | [] => some []
  | i :: is =>
    match evalRow e i, evalRows e is with
    | some x, some xs => some (x :: xs)
    | _, _ => none

/-- Modelled from the spec: the Selection tagged variant of section 3
(All, BooleanMask, IndexList, ContiguousSlice); the contiguous slice is
carried as a prefix length, which is the form the tests exercise. -/
inductive Selection where
  | all
  | sliceTake (k : Nat)
  | mask (bs : List Bool)
  | idx (is : List Nat)
deriving DecidableEq, Repr

/-- Modelled from the spec: the list of local row indices a Selection
keeps, out of a local row range of size n, in order. -/
def selIdx : Selection → Nat → List Nat
  | .all, n => List.range n
  | .sliceTake k, n => (List.range n).take k
  | .mask bs, n => (List.range n).filter (fun i => bs.getD i false)
  | .idx is, n => is.filter (fun i => decide (i < n))

/-- Modelled from the spec: SelectionCompositor.compose (section 4.2) —
the outer selection t is applied to the row list the inner selection s
already keeps, yielding one composed selection (never double-filtering). -/
def composeSel (s t : Selection) (n : Nat) : Selection :=
  let base := selIdx s n
  Selection.idx ((selIdx t base.length).map (fun j => base.getD j 0))

/-- Modelled from the spec: attrs values, including the null marker that
must round-trip through the metadata serialization boundary. -/
inductive AttrVal where
  | null
  | int (n : Int)
  | str (s : String)
deriving DecidableEq, Repr

/-- Association-list lookup by key (first match), the name-table primitive
of the ColumnGraph model. -/
def alookup {α : Type} : List (String × α) → String → Option α
  | [], _ => none
  | (k, v) :: rest, n => if k = n then some v else alookup rest n

/-- Association-list update: replace the first binding of the key, or
append a fresh binding, preserving insertion order. -/
def aset {α : Type} : List (String × α) → String → α → List (String × α)
  | [], n, v => [(n, v)]
  | (k, w) :: rest, n, v =>
    if k = n then (n, v) :: rest else (k, w) :: aset rest n v

/-- Association-list removal of the first binding of the key. -/
def aremove {α : Type} : List (String × α) → String → List (String × α)
  | [], _ => []
  | (k, w) :: rest, n => if k = n then rest else (k, w) :: aremove rest n

/-- Modelled from the spec: a CatalogSource (section 3) — hard columns
with their backing data, the virtual-column override table (expression
snapshots, insertion order), the active Selection, attrs, and the local
row count. -/
structure Catalog where
  hardcols : List (String × List Int)
  overrides : List (String × Expr)
  sel : Selection
  attrs : List (String × AttrVal)
  localSize : Nat
deriving DecidableEq, Repr

/-- Modelled from the spec: resolving a column name to its stored
definition — overrides shadow hard columns, a hard column resolves to a
hard leaf. -/
def getColDef (c : Catalog) (name : String) : Option Expr :=
  match alookup c.overrides name with
  | some e => some e
  | none => (alookup c.hardcols name).map Expr.hard

/-- Modelled from the spec: ColumnGraph.set (section 4.1) — the expression
argument is already a resolved snapshot (an Expr contains no names), so
storing it can never create a cycle. -/
def setColumn (c : Catalog) (name : String) (e : Expr) : Catalog :=
  { c with overrides := aset c.overrides name e }

/-- Modelled from the spec: building the snapshot for the assignment
target := left + right, resolving both operand names against the graph's
current state at assignment time (section 4.1 snapshot semantics). -/
def addCols (c : Catalog) (left right : String) : Option Expr :=
  match getColDef c left, getColDef c right with
  | some x, some y => some (.add x y)
  | _, _ => none

/-- Modelled from the spec: slicing a catalog composes the new selection
with the existing one (section 4.3 slice). -/
def sliceCat (c : Catalog) (t : Selection) : Catalog :=
  { c with sel := composeSel c.sel t c.localSize }

/-- Modelled from the spec: compute() on one column — the stored
definition is evaluated only at the rows the active selection keeps; none
models a raised exception. -/
def computeCol (c : Catalog) (name : String) : Option (List Int) :=
  match getColDef c name with
  | some e => evalRows e (selIdx c.sel c.localSize)
  | none => none

/-- Modelled from the spec: the ColumnAccessor handle (section 3) — the
pure flag records that the handle is still exactly the stored definition
under the catalog's current selection (pushdown-eligible). -/
structure ColumnAccessor where
  colName : String
  defn : Expr
  isPure : Bool
deriving DecidableEq, Repr

/-- Modelled from the spec: column lookup returns a pure accessor wrapping
the stored definition. -/
def accessorOf (c : Catalog) (name : String) : Option ColumnAccessor :=
  (getColDef c name).map (fun e => { colName := name, defn := e, isPure := true })

/-- The all-ones two-column catalog of test_transform: hard columns
Position and Velocity, each n rows of ones. -/
def onesCatalog (n : Nat) : Catalog :=
  { hardcols := [("Position", List.replicate n 1), ("Velocity", List.replicate n 1)]
    overrides := []
    sel := .all
    attrs := []
    localSize := n }

/-- The test_transform scenario: V gets P+V, then P gets P+V, each
assignment snapshotting the operand definitions current at its time. -/
def transformScenario (n : Nat) : Option Catalog :=
  let c := onesCatalog n
  match addCols c "Position" "Velocity" with
  | none => none
  | some e1 =>
    let c1 := setColumn c "Velocity" e1
    match addCols c1 "Position" "Velocity" with
    | none => none
    | some e2 => some (setColumn c1 "Position" e2)

theorem evalRow_hard_replicate {n : Nat} {v : Int} {i : Nat} (h : i < n) :
    evalRow (.hard (List.replicate n v)) i = some v := by
  simp [evalRow, List.getElem?_replicate, h]

theorem evalRows_const {e : Expr} {v : Int} :
    ∀ {is : List Nat}, (∀ i ∈ is, evalRow e i = some v) →
      evalRows e is = some (List.replicate is.length v)
  | [], _ => rfl
  | i :: is, h => by
    have hi : evalRow e i = some v := h i (List.mem_cons_self i is)
    have hrest := @evalRows_const e v is
      (fun j hj => h j (List.mem_cons_of_mem i hj))
    simp [evalRows, hi, hrest, List.replicate]

/-- C1. Assignment snapshot fixed point: on the all-ones catalog, the
assignment V := P+V followed by P := P+V yields a Position column whose
compute() is 3 at every row — a closed, finite expression tree, because
each assignment snapshots the operand definitions current at assignment
time rather than keeping live name references. -/
theorem assignment_snapshot_fixed_point (n : Nat) :
    ∃ c : Catalog, transformScenario n = some c ∧
      computeCol c "Position" = some (List.replicate n 3) := by
  refine ⟨_, rfl, ?_⟩
  show computeCol
    (setColumn (setColumn (onesCatalog n) "Velocity"
        (.add (.hard (List.replicate n 1)) (.hard (List.replicate n 1))))
      "Position"
      (.add (.hard (List.replicate n 1))
        (.add (.hard (List.replicate n 1)) (.hard (List.replicate n 1)))))
    "Position" = some (List.replicate n 3)
  have hrows : ∀ i ∈ List.range n,
      evalRow (Expr.add (.hard (List.replicate n (1 : Int)))
        (.add (.hard (List.replicate n 1)) (.hard (List.replicate n 1)))) i
        = some 3 := by
    intro i hi
    have h : i < n := List.mem_range.mp hi
    simp [evalRow, List.getElem?_replicate, h]
  have := evalRows_const (e := Expr.add (.hard (List.replicate n (1 : Int)))
      (.add (.hard (List.replicate n 1)) (.hard (List.replicate n 1))))
      (v := 3) hrows
  simpa [computeCol, getColDef, setColumn, onesCatalog, aset, alookup, selIdx,
    List.length_range] using this

theorem mem_selIdx_lt {s : Selection} {n i : Nat} (h : i ∈ selIdx s n) :
    i < n := by
  cases s with
  | all => exact List.mem_range.mp h
  | sliceTake k =>
    exact List.mem_range.mp (List.take_subset _ _ h)
  | mask bs =>
    exact List.mem_range.mp (List.mem_filter.mp h).1
  | idx is =>
    exact of_decide_eq_true (List.mem_filter.mp h).2

theorem selIdx_idx_of_lt {is : List Nat} {n : Nat} (h : ∀ i ∈ is, i < n) :
    selIdx (.idx is) n = is := by
  simp only [selIdx]
  exact List.filter_eq_self.mpr (fun i hi => decide_eq_true (h i hi))

theorem map_getD_range (l : List Nat) :
    (List.range l.length).map (fun j => l.getD j 0) = l := by
  induction l with
  | nil => rfl
  | cons a t ih =>
    simp only [List.length_cons, List.range_succ_eq_map, List.map_cons,
      List.map_map]
    refine congrArg₂ _ rfl ?_
    have : ((fun j => (a :: t).getD j 0) ∘ Nat.succ) = fun j => t.getD j 0 := by
      funext j; rfl
    rw [this, ih]

theorem evalRows_take {e : Expr} :
    ∀ {is : List Nat} {out : List Int} (k : Nat),
      evalRows e is = some out → evalRows e (is.take k) = some (out.take k)
  | [], out, k, h => by
    cases h; simp [evalRows]
  | i :: is, out, 0, h => by simp [evalRows]
  | i :: is, out, k + 1, h => by
    revert h
    simp only [evalRows]
    cases hx : evalRow e i with
    | none => intro h; cases h
    | some x =>
      cases hxs : evalRows e is with
      | none => intro h; cases h
      | some xs =>
        intro h
        cases h
        have := @evalRows_take e is xs k hxs
        simp [List.take, this]

theorem evalRows_length {e : Expr} :
    ∀ {is : List Nat} {out : List Int},
      evalRows e is = some out → out.length = is.length
  | [], out, h => by cases h; rfl
  | i :: is, out, h => by
    revert h
    simp only [evalRows]
    cases hx : evalRow e i with
    | none => intro h; cases h
    | some x =>
      cases hxs : evalRows e is with
      | none => intro h; cases h
      | some xs =>
        intro h
        cases h
        simp [@evalRows_length e is xs hxs]

theorem composeSel_sliceTake (s : Selection) (k n : Nat) :
    selIdx (composeSel s (.sliceTake k) n) n = (selIdx s n).take k := by
  have h1 : composeSel s (.sliceTake k) n
      = Selection.idx ((selIdx s n).take k) := by
    simp only [composeSel]
    rw [show selIdx (.sliceTake k) (selIdx s n).length
        = (List.range (selIdx s n).length).take k from rfl]
    rw [List.map_take, map_getD_range]
  rw [h1]
  exact selIdx_idx_of_lt
    (fun i hi => mem_selIdx_lt (List.take_subset _ _ hi))

theorem getColDef_sliceCat (c : Catalog) (t : Selection) (name : String) :
    getColDef (sliceCat c t) name = getColDef c name := rfl

theorem sliceCat_sel (c : Catalog) (t : Selection) :
    (sliceCat c t).sel = composeSel c.sel t c.localSize := rfl

theorem sliceCat_localSize (c : Catalog) (t : Selection) :
    (sliceCat c t).localSize = c.localSize := rfl

/-- C2. Consecutive slicing composes: slicing twice with prefix slices
[:20] then [:10] yields, on every column whose compute() succeeds, exactly
the two slices applied to the original materialized data, and after each
slice the column accessor of the sliced catalog is still in the
pure/pushdown-eligible state (the composed selection is pushed down). -/
theorem consecutive_slicing_composes (c : Catalog) (name : String)
    (data : List Int) (h : computeCol c name = some data) :
    computeCol (sliceCat (sliceCat c (.sliceTake 20)) (.sliceTake 10)) name
      = some ((data.take 20).take 10)
    ∧ (accessorOf (sliceCat c (.sliceTake 20)) name).map ColumnAccessor.isPure
      = some true
    ∧ (accessorOf (sliceCat (sliceCat c (.sliceTake 20)) (.sliceTake 10))
        name).map ColumnAccessor.isPure = some true := by
  revert h
  unfold computeCol
  cases hdef : getColDef c name with
  | none => intro h; cases h
  | some e =>
    intro h
    refine ⟨?_, ?_, ?_⟩
    · rw [getColDef_sliceCat, getColDef_sliceCat, hdef]
      simp only [sliceCat_sel, sliceCat_localSize]
      rw [composeSel_sliceTake, composeSel_sliceTake]
      exact evalRows_take 10 (evalRows_take 20 h)
    · simp [accessorOf, getColDef_sliceCat, hdef]
    · simp [accessorOf, getColDef_sliceCat, hdef]

/-- Concrete 25-row catalog used to witness the slicing theorem. -/
def sliceDemoData : List Int :=
  [3, 1, 4, 1, 5, 9, 2, 6, 5, 3, 5, 8, 9, 7, 9, 3, 2, 3, 8, 4, 6, 2, 6, 4, 3]

/-- Concrete catalog with one hard column, used to witness C2. -/
def sliceDemoCatalog : Catalog :=
  { hardcols := [("Position", sliceDemoData)]
    overrides := []
    sel := .all
    attrs := []
    localSize := 25 }

theorem consecutive_slicing_composes_witness :
    computeCol sliceDemoCatalog "Position" = some sliceDemoData
    ∧ (computeCol (sliceCat (sliceCat sliceDemoCatalog (.sliceTake 20))
          (.sliceTake 10)) "Position"
        = some ((sliceDemoData.take 20).take 10)
      ∧ (accessorOf (sliceCat sliceDemoCatalog (.sliceTake 20)) "Position").map
          ColumnAccessor.isPure = some true
      ∧ (accessorOf (sliceCat (sliceCat sliceDemoCatalog (.sliceTake 20))
            (.sliceTake 10)) "Position").map ColumnAccessor.isPure = some true) :=
  ⟨by decide,
   consecutive_slicing_composes sliceDemoCatalog "Position" sliceDemoData
     (by decide)⟩

theorem evalRows_none_of_mem {e : Expr} {i : Nat} :
    ∀ {is : List Nat}, i ∈ is → evalRow e i = none → evalRows e is = none := by
  intro is
  induction is with
  | nil => intro h; cases h
  | cons j t ih =>
    intro hmem hnone
    simp only [evalRows]
    rcases List.mem_cons.mp hmem with h | h
    · subst h
      rw [hnone]
    · rw [ih h hnone]
      cases evalRow e j <;> rfl

theorem evalRows_isSome {e : Expr} :
    ∀ {is : List Nat}, (∀ i ∈ is, (evalRow e i).isSome = true) →
      ∃ out, evalRows e is = some out := by
  intro is
  induction is with
  | nil => exact fun _ => ⟨[], rfl⟩
  | cons j t ih =>
    intro h
    obtain ⟨x, hx⟩ := Option.isSome_iff_exists.mp (h j (List.mem_cons_self j t))
    obtain ⟨xs, hxs⟩ := ih (fun i hi => h i (List.mem_cons_of_mem j hi))
    exact ⟨x :: xs, by simp [evalRows, hx, hxs]⟩

theorem getD_range {n j : Nat} (h : j < n) : (List.range n).getD j 0 = j := by
  rw [List.getD_eq_getElem _ _ (by simpa [List.length_range] using h)]
  exact List.getElem_range _ _

theorem selIdx_composeSel_all_mask (bs : List Bool) (n : Nat) :
    selIdx (composeSel .all (.mask bs) n) n
      = (List.range n).filter (fun i => bs.getD i false) := by
  have hmem : ∀ j ∈ (List.range n).filter (fun i => bs.getD i false),
      (fun j => (List.range n).getD j 0) j = id j := by
    intro j hj
    exact getD_range (List.mem_range.mp (List.mem_filter.mp hj).1)
  have h1 : composeSel .all (.mask bs) n
      = Selection.idx ((List.range n).filter (fun i => bs.getD i false)) := by
    simp only [composeSel]
    rw [show selIdx Selection.all n = List.range n from rfl]
    rw [show selIdx (Selection.mask bs) (List.range n).length
        = (List.range (List.range n).length).filter (fun i => bs.getD i false)
        from rfl]
    rw [List.length_range, List.map_congr_left hmem, List.map_id]
  rw [h1]
  exact selIdx_idx_of_lt
    (fun i hi => List.mem_range.mp (List.mem_filter.mp hi).1)

/-- The test_optimized_selection scenario: a hard column z and a virtual
Position column that applies the failing domain transform to the snapshot
of z taken at assignment time. -/
def zCatalog (data : List Int) : Catalog :=
  { hardcols := [("z", data)]
    overrides := [("Position", .domainT (.hard data))]
    sel := .all
    attrs := []
    localSize := data.length }

/-- The boolean-mask selection keeping exactly the rows on which the
domain transform is defined (non-negative z). -/
def keepNonneg (data : List Int) : Selection :=
  .mask (data.map (fun x => decide (0 ≤ x)))

/-- C3. Selection genuinely skips failing rows: when some row of z is
negative, compute() of the virtual Position column on the whole catalog
fails (none models the raised exception), but compute() of the same
column after filtering the catalog to exclude exactly the offending rows
succeeds — the selection is applied before the per-row transform, so
unselected rows are never evaluated. -/
theorem selection_skips_failing_rows (data : List Int)
    (hx : ∃ x ∈ data, x < 0) :
    computeCol (zCatalog data) "Position" = none
    ∧ ∃ out,
        computeCol (sliceCat (zCatalog data) (keepNonneg data)) "Position"
          = some out := by
  have hdef : getColDef (zCatalog data) "Position"
      = some (.domainT (.hard data)) := rfl
  constructor
  · obtain ⟨x, hmem, hneg⟩ := hx
    obtain ⟨i, hi, hgi⟩ := List.getElem_of_mem hmem
    have hrow : evalRow (.domainT (.hard data)) i = none := by
      simp only [evalRow, List.getElem?_eq_getElem hi, hgi]
      rw [if_neg (not_le.mpr hneg)]
    simp only [computeCol, hdef]
    exact evalRows_none_of_mem
      (List.mem_range.mpr (by simpa [zCatalog, selIdx] using hi)) hrow
  · have hsel : selIdx (sliceCat (zCatalog data) (keepNonneg data)).sel
        (sliceCat (zCatalog data) (keepNonneg data)).localSize
        = (List.range data.length).filter
            (fun i => (data.map (fun x => decide (0 ≤ x))).getD i false) :=
      selIdx_composeSel_all_mask (data.map (fun x => decide (0 ≤ x)))
        data.length
    simp only [computeCol, getColDef_sliceCat, hdef, hsel]
    apply evalRows_isSome
    intro i hi
    have hilt : i < data.length := List.mem_range.mp (List.mem_filter.mp hi).1
    have hcond : (data.map (fun x => decide (0 ≤ x))).getD i false = true :=
      (List.mem_filter.mp hi).2
    have hpos : 0 ≤ data[i] := by
      rw [List.getD_eq_getElem?_getD, List.getElem?_map,
        List.getElem?_eq_getElem hilt] at hcond
      simpa using hcond
    simp [evalRow, List.getElem?_eq_getElem hilt, hpos]

/-- Concrete z data with one negative row, used to witness C3. -/
def failDemoData : List Int := [1, -2, 3]

theorem selection_skips_failing_rows_witness :
    (∃ x ∈ failDemoData, x < 0)
    ∧ (computeCol (zCatalog failDemoData) "Position" = none
      ∧ ∃ out,
          computeCol (sliceCat (zCatalog failDemoData)
            (keepNonneg failDemoData)) "Position" = some out) :=
  ⟨by decide, selection_skips_failing_rows failDemoData (by decide)⟩

/-- Embedded from src/nbodykit/source/catalog/file.py
(FileCatalogBase.size and FileCatalogBase.get_hardcolumn): the local row
range of one rank, by the floor-division boundary rule
start = rank * global_size // num_ranks,
stop = (rank + 1) * global_size // num_ranks. -/
def partition (globalSize rank numRanks : Nat) : Nat × Nat :=
  (rank * globalSize / numRanks, (rank + 1) * globalSize / numRanks)

/-- Embedded from file.py FileCatalogBase.size: the local size is
stop - start of the rank's partition range. -/
def partitionLen (globalSize rank numRanks : Nat) : Nat :=
  (partition globalSize rank numRanks).2 - (partition globalSize rank numRanks).1

theorem div_add_div_le {n : Nat} (a b : Nat) (hn : 0 < n) :
    a / n + b / n ≤ (a + b) / n := by
  rw [Nat.le_div_iff_mul_le hn, Nat.add_mul]
  exact Nat.add_le_add (Nat.div_mul_le_self a n) (Nat.div_mul_le_self b n)

theorem add_div_le_succ {n : Nat} (a b : Nat) (hn : 0 < n) :
    (a + b) / n ≤ a / n + b / n + 1 := by
  rw [Nat.add_div hn]
  split <;> omega

theorem partition_start_mono {g n : Nat} {r s : Nat} (h : r ≤ s) :
    (partition g r n).1 ≤ (partition g s n).1 :=
  Nat.div_le_div_right (Nat.mul_le_mul_right g h)

/-- C4. Partition coverage and balance, for the floor-division rule
embedded from file.py: start of rank 0 is 0, stop of the last rank is the
global size, each rank's stop is the next rank's start (contiguity in
rank order), ranges are non-decreasing, every global row index is covered
by exactly one rank (no gap, no overlap), and any two ranks' local sizes
differ by at most 1.  The result is literally a function of
(global_size, rank, num_ranks), hence identical on every process. -/
theorem partition_tiles_and_balances (g n : Nat) (hn : 0 < n) :
    (partition g 0 n).1 = 0
    ∧ (partition g (n - 1) n).2 = g
    ∧ (∀ r, (partition g r n).2 = (partition g (r + 1) n).1)
    ∧ (∀ r, (partition g r n).1 ≤ (partition g r n).2)
    ∧ (∀ i, i < g →
        ∃! r, r < n ∧ (partition g r n).1 ≤ i ∧ i < (partition g r n).2)
    ∧ (∀ r s, partitionLen g r n ≤ partitionLen g s n + 1) := by
  have hmul : ∀ r : Nat, (r + 1) * g = r * g + g := fun r => by ring
  have hlow : ∀ r, g / n ≤ partitionLen g r n := by
    intro r
    have h1 : r * g / n + g / n ≤ (r * g + g) / n := div_add_div_le _ _ hn
    simp only [partitionLen, partition, hmul]
    omega
  have hhigh : ∀ r, partitionLen g r n ≤ g / n + 1 := by
    intro r
    have h1 : (r * g + g) / n ≤ r * g / n + g / n + 1 := add_div_le_succ _ _ hn
    have h2 : r * g / n ≤ (r * g + g) / n :=
      Nat.div_le_div_right (Nat.le_add_right _ _)
    simp only [partitionLen, partition, hmul]
    omega
  refine ⟨by simp [partition], ?_, fun r => rfl, ?_, ?_, ?_⟩
  · show (n - 1 + 1) * g / n = g
    rw [Nat.sub_add_cancel hn, Nat.mul_div_cancel_left g hn]
  · exact fun r => partition_start_mono (Nat.le_succ r)
  · intro i hi
    have hP0 : (fun r => r * g / n ≤ i) 0 := by simp
    set r0 := Nat.findGreatest (fun r => r * g / n ≤ i) n with hr0def
    have hr0P : r0 * g / n ≤ i :=
      Nat.findGreatest_spec (P := fun r => r * g / n ≤ i)
        (Nat.zero_le n) hP0
    have hr0le : r0 ≤ n :=
      hr0def ▸ Nat.findGreatest_le (P := fun r => r * g / n ≤ i) n
    have hr0lt : r0 < n := by
      rcases Nat.lt_or_ge r0 n with h | h
      · exact h
      · exfalso
        have hr0n : r0 = n := le_antisymm hr0le h
        rw [hr0n, Nat.mul_div_cancel_left g hn] at hr0P
        omega
    have hub : i < (r0 + 1) * g / n := by
      have hlt : Nat.findGreatest (fun r => r * g / n ≤ i) n < r0 + 1 := by
        rw [← hr0def]
        omega
      have hnot : ¬((r0 + 1) * g / n ≤ i) :=
        Nat.findGreatest_is_greatest (P := fun r => r * g / n ≤ i)
          hlt (by omega)
      omega
    refine ⟨r0, ⟨hr0lt, hr0P, hub⟩, ?_⟩
    intro s hs
    obtain ⟨hsn, hs1, hs2⟩ := hs
    by_contra hne
    rcases Nat.lt_or_ge s r0 with hlt | hge
    · have hm : (s + 1) * g / n ≤ r0 * g / n :=
        Nat.div_le_div_right (Nat.mul_le_mul_right g hlt)
      simp only [partition] at hs2
      omega
    · have hr0s : r0 < s := lt_of_le_of_ne hge fun h => hne h.symm
      have hm : (r0 + 1) * g / n ≤ s * g / n :=
        Nat.div_le_div_right (Nat.mul_le_mul_right g hr0s)
      simp only [partition] at hs1
      omega
  · intro r s
    have := hlow s
    have := hhigh r
    omega

theorem partition_tiles_and_balances_witness :
    0 < 4
    ∧ ((partition 10 0 4).1 = 0
      ∧ (partition 10 (4 - 1) 4).2 = 10
      ∧ (∀ r, (partition 10 r 4).2 = (partition 10 (r + 1) 4).1)
      ∧ (∀ r, (partition 10 r 4).1 ≤ (partition 10 r 4).2)
      ∧ (∀ i, i < 10 →
          ∃! r, r < 4 ∧ (partition 10 r 4).1 ≤ i ∧ i < (partition 10 r 4).2)
      ∧ (∀ r s, partitionLen 10 r 4 ≤ partitionLen 10 s 4 + 1)) :=
  ⟨by decide, partition_tiles_and_balances 10 4 (by decide)⟩

theorem getD_append_left {α : Type} (l l2 : List α) (d : α) {i : Nat}
    (h : i < l.length) : (l ++ l2).getD i d = l.getD i d := by
  simp [List.getD_eq_getElem?_getD, List.getElem?_append, h]

theorem getD_concat_length {α : Type} (l : List α) (a : α) (d : α) :
    (l ++ [a]).getD l.length d = a := by
  simp [List.getD_eq_getElem?_getD, List.getElem?_concat_length]

theorem getD_set_ne {α : Type} (l : List α) (a d : α) {i j : Nat}
    (h : i ≠ j) : (l.set i a).getD j d = l.getD j d := by
  simp [List.getD_eq_getElem?_getD, List.getElem?_set, h]

theorem getD_set_eq {α : Type} (l : List α) (a d : α) {i : Nat}
    (h : i < l.length) : (l.set i a).getD i d = a := by
  simp [List.getD_eq_getElem?_getD, List.getElem?_set, h]

theorem alookup_aset_self {α : Type} (l : List (String × α)) (n : String)
    (v : α) : alookup (aset l n v) n = some v := by
  induction l with
  | nil => simp [aset, alookup]
  | cons p t ih =>
    obtain ⟨k, w⟩ := p
    by_cases h : k = n
    · simp [aset, h, alookup]
    · simp [aset, h, alookup, ih]

/-- Modelled from the spec: the ColumnGraph storage unit (section 3) —
hard columns, virtual overrides and the local row count; views share one
such storage, copies own a snapshot of it. -/
structure ColumnGraph where
  ghard : List (String × List Int)
  gover : List (String × Expr)
  nrows : Nat
deriving DecidableEq, Repr

instance : Inhabited ColumnGraph := ⟨⟨[], [], 0⟩⟩

/-- Modelled from the spec: name resolution inside one ColumnGraph
storage (overrides shadow hard columns). -/
def graphColDef (g : ColumnGraph) (name : String) : Option Expr :=
  match alookup g.gover name with
  | some e => some e
  | none => (alookup g.ghard name).map Expr.hard

/-- Modelled from the spec: materializing a column of one ColumnGraph
storage over its full local row range. -/
def graphCompute (g : ColumnGraph) (name : String) : Option (List Int) :=
  match graphColDef g name with
  | some e => evalRows e (List.range g.nrows)
  | none => none

/-- Modelled from the spec: one catalog instance — the index of the graph
storage it uses, its own attrs overlay, its base link (set by view) and
its class tag (copy and view preserve the source's class). -/
structure CatRec where
  gid : Nat
  cattrs : List (String × AttrVal)
  base : Option Nat
  cls : String
deriving DecidableEq, Repr

instance : Inhabited CatRec := ⟨⟨0, [], none, ""⟩⟩

/-- Modelled from the spec: the process-local heap of catalog instances
and their (possibly shared) ColumnGraph storages.  Column mutation writes
through a catalog's gid, so it reaches every catalog sharing that storage
(views) and no catalog holding its own snapshot (copies). -/
structure World where
  graphs : List ColumnGraph
  cats : List CatRec
deriving DecidableEq, Repr

/-- The catalog record a catalog id designates. -/
def catOf (w : World) (cid : Nat) : CatRec := w.cats.getD cid default

/-- The graph storage a storage index designates. -/
def graphAt (w : World) (gid : Nat) : ColumnGraph := w.graphs.getD gid default

/-- The id the next catalog added to the world receives. -/
def newId (w : World) : Nat := w.cats.length

/-- Modelled from the spec: copy() — an independent catalog with its own
ColumnGraph snapshot (fresh storage holding the same definitions), same
attrs and class, no base link. -/
def copyCat (w : World) (cid : Nat) : World :=
  { graphs := w.graphs ++ [graphAt w (catOf w cid).gid]
    cats := w.cats ++ [{ gid := w.graphs.length
                         cattrs := (catOf w cid).cattrs
                         base := none
                         cls := (catOf w cid).cls }] }

/-- Modelled from the spec: view() — a derivative catalog sharing the same
underlying ColumnGraph storage, with its own attrs overlay, whose base is
the source and whose class is the source's class. -/
def viewCat (w : World) (cid : Nat) : World :=
  { w with cats := w.cats ++ [{ gid := (catOf w cid).gid
                                cattrs := (catOf w cid).cattrs
                                base := some cid
                                cls := (catOf w cid).cls }] }

/-- Modelled from the spec: column assignment on a catalog instance
updates the graph storage its gid designates. -/
def wSetColumn (w : World) (cid : Nat) (name : String) (e : Expr) : World :=
  { w with graphs := (w.graphs.set (catOf w cid).gid
      ({ graphAt w (catOf w cid).gid with
         gover := aset (graphAt w (catOf w cid).gid).gover name e })) }

/-- Modelled from the spec: attrs mutation on a catalog instance updates
only that instance's attrs overlay. -/
def wSetAttr (w : World) (cid : Nat) (k : String) (v : AttrVal) : World :=
  { w with cats := (w.cats.set cid
      ({ catOf w cid with cattrs := aset (catOf w cid).cattrs k v })) }

/-- Materialized column data of a catalog instance. -/
def wGetCol (w : World) (cid : Nat) (name : String) : Option (List Int) :=
  graphCompute (graphAt w (catOf w cid).gid) name

/-- Stored column definition of a catalog instance. -/
def wColDef (w : World) (cid : Nat) (name : String) : Option Expr :=
  graphColDef (graphAt w (catOf w cid).gid) name

/-- One attrs entry of a catalog instance. -/
def wGetAttr (w : World) (cid : Nat) (k : String) : Option AttrVal :=
  alookup (catOf w cid).cattrs k

/-- The base link of a catalog instance (view.base is the source). -/
def wBase (w : World) (cid : Nat) : Option Nat := (catOf w cid).base

/-- The class tag of a catalog instance. -/
def wCls (w : World) (cid : Nat) : String := (catOf w cid).cls

theorem catOf_copyCat_old (w : World) (cid i : Nat) (h : i < w.cats.length) :
    catOf (copyCat w cid) i = catOf w i := by
  simp only [catOf, copyCat]
  exact getD_append_left _ _ _ h

theorem catOf_copyCat_new (w : World) (cid : Nat) :
    catOf (copyCat w cid) (newId w)
      = ⟨w.graphs.length, (catOf w cid).cattrs, none, (catOf w cid).cls⟩ := by
  simp only [catOf, copyCat, newId]
  exact getD_concat_length _ _ _

theorem graphAt_copyCat_old (w : World) (cid gid : Nat)
    (h : gid < w.graphs.length) :
    graphAt (copyCat w cid) gid = graphAt w gid := by
  simp only [graphAt, copyCat]
  exact getD_append_left _ _ _ h

theorem graphAt_copyCat_new (w : World) (cid : Nat) :
    graphAt (copyCat w cid) w.graphs.length
      = graphAt w (catOf w cid).gid := by
  simp only [graphAt, copyCat]
  exact getD_concat_length _ _ _

theorem catOf_wSetColumn (w : World) (cid2 i : Nat) (name : String)
    (e : Expr) : catOf (wSetColumn w cid2 name e) i = catOf w i := rfl

theorem graphAt_wSetColumn_ne (w : World) (cid2 : Nat) (name : String)
    (e : Expr) {gid : Nat} (h : (catOf w cid2).gid ≠ gid) :
    graphAt (wSetColumn w cid2 name e) gid = graphAt w gid := by
  simp only [graphAt, wSetColumn]
  exact getD_set_ne _ _ _ h

theorem graphAt_wSetColumn_eq (w : World) (cid2 : Nat) (name : String)
    (e : Expr) (h : (catOf w cid2).gid < w.graphs.length) :
    graphAt (wSetColumn w cid2 name e) (catOf w cid2).gid
      = { graphAt w (catOf w cid2).gid with
          gover := aset (graphAt w (catOf w cid2).gid).gover name e } := by
  simp only [graphAt, wSetColumn]
  exact getD_set_eq _ _ _ h

theorem catOf_wSetAttr_ne (w : World) (cid2 : Nat) (k : String)
    (v : AttrVal) {i : Nat} (h : cid2 ≠ i) :
    catOf (wSetAttr w cid2 k v) i = catOf w i := by
  simp only [catOf, wSetAttr]
  exact getD_set_ne _ _ _ h

theorem catOf_viewCat_old (w : World) (cid i : Nat) (h : i < w.cats.length) :
    catOf (viewCat w cid) i = catOf w i := by
  simp only [catOf, viewCat]
  exact getD_append_left _ _ _ h

theorem catOf_viewCat_new (w : World) (cid : Nat) :
    catOf (viewCat w cid) (newId w)
      = ⟨(catOf w cid).gid, (catOf w cid).cattrs, some cid,
          (catOf w cid).cls⟩ := by
  simp only [catOf, viewCat, newId]
  exact getD_concat_length _ _ _

/-- C5. Copy/view independence and propagation: after copy(), the copy's
materialized data equals the source's at copy time; mutating a column or
an attrs entry on either the copy or the source never changes the other's
data or attrs; after view(), view.base is the source, the view carries the
source's class, and assigning a column through the view is observable on
the source (they share ColumnGraph storage). -/
theorem copy_view_independence (w : World) (cid : Nat)
    (hc : cid < w.cats.length)
    (hg : (catOf w cid).gid < w.graphs.length) :
    (∀ name, wGetCol (copyCat w cid) (newId w) name = wGetCol w cid name)
    ∧ (∀ name e m,
        wGetCol (wSetColumn (copyCat w cid) (newId w) name e) cid m
          = wGetCol w cid m)
    ∧ (∀ name e m,
        wGetCol (wSetColumn (copyCat w cid) cid name e) (newId w) m
          = wGetCol w cid m)
    ∧ (∀ a v b,
        wGetAttr (wSetAttr (copyCat w cid) (newId w) a v) cid b
          = wGetAttr w cid b)
    ∧ (∀ a v b,
        wGetAttr (wSetAttr (copyCat w cid) cid a v) (newId w) b
          = wGetAttr w cid b)
    ∧ wBase (viewCat w cid) (newId w) = some cid
    ∧ wCls (viewCat w cid) (newId w) = wCls w cid
    ∧ (∀ name e,
        wColDef (wSetColumn (viewCat w cid) (newId w) name e) cid name
          = some e) := by
  refine ⟨?_, ?_, ?_, ?_, ?_, ?_, ?_, ?_⟩
  · intro name
    simp only [wGetCol, catOf_copyCat_new]
    rw [graphAt_copyCat_new]
  · intro name e m
    have hne : (catOf (copyCat w cid) (newId w)).gid ≠ (catOf w cid).gid := by
      simp only [catOf_copyCat_new]
      exact Nat.ne_of_gt hg
    simp only [wGetCol, catOf_wSetColumn]
    rw [catOf_copyCat_old w cid cid hc]
    rw [graphAt_wSetColumn_ne _ _ _ _ hne]
    rw [graphAt_copyCat_old w cid _ hg]
  · intro name e m
    have hne : (catOf (copyCat w cid) cid).gid ≠ w.graphs.length := by
      rw [catOf_copyCat_old w cid cid hc]
      exact Nat.ne_of_lt hg
    simp only [wGetCol, catOf_wSetColumn, catOf_copyCat_new]
    rw [graphAt_wSetColumn_ne _ _ _ _ hne]
    rw [graphAt_copyCat_new]
  · intro a v b
    have hne : newId w ≠ cid := Nat.ne_of_gt hc
    simp only [wGetAttr]
    rw [catOf_wSetAttr_ne _ _ _ _ hne, catOf_copyCat_old w cid cid hc]
  · intro a v b
    have hne : cid ≠ newId w := Nat.ne_of_lt hc
    simp only [wGetAttr]
    rw [catOf_wSetAttr_ne _ _ _ _ hne, catOf_copyCat_new]
  · rw [wBase, catOf_viewCat_new]
  · rw [wCls, wCls, catOf_viewCat_new]
  · intro name e
    have hgid : (catOf (viewCat w cid) (newId w)).gid = (catOf w cid).gid := by
      rw [catOf_viewCat_new]
    simp only [wColDef, catOf_wSetColumn]
    rw [catOf_viewCat_old w cid cid hc]
    rw [← hgid]
    rw [graphAt_wSetColumn_eq]
    · simp [graphColDef, alookup_aset_self]
    · rw [hgid]
      exact hg

/-- Concrete one-catalog world used to witness C5. -/
def demoWorld : World :=
  { graphs := [{ ghard := [("Position", [1, 2, 3])], gover := [], nrows := 3 }]
    cats := [{ gid := 0
               cattrs := [("BoxSize", AttrVal.int 1024)]
               base := none
               cls := "UniformCatalog" }] }

theorem copy_view_independence_witness :
    (0 < demoWorld.cats.length
      ∧ (catOf demoWorld 0).gid < demoWorld.graphs.length)
    ∧ ((∀ name, wGetCol (copyCat demoWorld 0) (newId demoWorld) name
          = wGetCol demoWorld 0 name)
      ∧ (∀ name e m,
          wGetCol (wSetColumn (copyCat demoWorld 0) (newId demoWorld) name e)
            0 m = wGetCol demoWorld 0 m)
      ∧ (∀ name e m,
          wGetCol (wSetColumn (copyCat demoWorld 0) 0 name e)
            (newId demoWorld) m = wGetCol demoWorld 0 m)
      ∧ (∀ a v b,
          wGetAttr (wSetAttr (copyCat demoWorld 0) (newId demoWorld) a v) 0 b
            = wGetAttr demoWorld 0 b)
      ∧ (∀ a v b,
          wGetAttr (wSetAttr (copyCat demoWorld 0) 0 a v) (newId demoWorld) b
            = wGetAttr demoWorld 0 b)
      ∧ wBase (viewCat demoWorld 0) (newId demoWorld) = some 0
      ∧ wCls (viewCat demoWorld 0) (newId demoWorld) = wCls demoWorld 0
      ∧ (∀ name e,
          wColDef (wSetColumn (viewCat demoWorld 0) (newId demoWorld) name e)
            0 name = some e)) :=
  ⟨⟨by decide, by decide⟩,
   copy_view_independence demoWorld 0 (by decide) (by decide)⟩

/-- Modelled from the spec: the error taxonomy of section 7.  Distinct
constructors model the distinct exception classes the core raises. -/
inductive CatalogError where
  | missingColumn
  | protectedColumn
  | invalidSelector
  | incompatibleValue
  | attributeProbe
  | configuration
deriving DecidableEq, Repr

/-- Modelled from the spec: delete(name) (section 4.1/4.3) — fails with
ProtectedColumnError on a Hard column and with MissingColumnError on an
absent name; only a stored override is removed.  An error result carries
no catalog, so a failed deletion leaves the catalog unchanged. -/
def deleteColumn (c : Catalog) (name : String) : Except CatalogError Catalog :=
  if (alookup c.hardcols name).isSome then .error .protectedColumn
  else if (alookup c.overrides name).isSome then
    .ok { c with overrides := aremove c.overrides name }
  else .error .missingColumn

/-- Modelled from the spec: the selector argument of catalog slicing —
a contiguous slice, an integer index list, a boolean mask, or a list of
floating-point values (which is structurally invalid). -/
inductive Selector where
  | slice (k : Nat)
  | ints (is : List Nat)
  | bools (bs : List Bool)
  | floats (xs : List Rat)
deriving DecidableEq, Repr

/-- Modelled from the spec: slicing with a selector (section 4.2 edge
cases) — a float list is rejected immediately with InvalidSelectorError,
never coerced to integers; valid selectors compose onto the catalog's
selection.  An error result carries no catalog, so the failed operation
leaves the catalog unchanged. -/
def selectRows (c : Catalog) (s : Selector) : Except CatalogError Catalog :=
  match s with
  | .slice k => .ok (sliceCat c (.sliceTake k))
  | .ints is => .ok (sliceCat c (.idx is))
  | .bools bs => .ok (sliceCat c (.mask bs))
  | .floats _ => .error .invalidSelector

/-- Modelled from the spec: get(name) (section 4.3) — fails with
MissingColumnError when the name is absent from the union of hard and
virtual columns; otherwise returns a pure accessor. -/
def getColumnE (c : Catalog) (name : String) : Except CatalogError ColumnAccessor :=
  match getColDef c name with
  | some e => .ok { colName := name, defn := e, isPure := true }
  | none => .error .missingColumn

/-- C6. Error kinds for misuse: deleting a Hard column fails with
ProtectedColumnError, deleting an absent column fails with
MissingColumnError, slicing with a list of floating-point values fails
with InvalidSelectorError (rejected immediately, never coerced), and
accessing an absent column name fails with MissingColumnError; every
failing operation returns an error with no catalog, so the catalog state
is unchanged. -/
theorem misuse_error_kinds (c : Catalog) (hardName absent : String)
    (xs : List Rat)
    (hhard : (alookup c.hardcols hardName).isSome = true)
    (habsent : getColDef c absent = none) :
    deleteColumn c hardName = .error .protectedColumn
    ∧ deleteColumn c absent = .error .missingColumn
    ∧ selectRows c (.floats xs) = .error .invalidSelector
    ∧ getColumnE c absent = .error .missingColumn := by
  have hover : alookup c.overrides absent = none := by
    cases ho : alookup c.overrides absent with
    | none => rfl
    | some e =>
      exfalso
      simp only [getColDef, ho] at habsent
      exact Option.noConfusion habsent
  have hhc : alookup c.hardcols absent = none := by
    cases hh : alookup c.hardcols absent with
    | none => rfl
    | some d =>
      exfalso
      simp only [getColDef, hover, hh, Option.map] at habsent
      exact Option.noConfusion habsent
  refine ⟨?_, ?_, rfl, ?_⟩
  · simp [deleteColumn, hhard]
  · simp [deleteColumn, hhc, hover]
  · simp [getColumnE, habsent]

/-- Concrete catalog with one hard and one override column, used to
witness the error-kind theorems. -/
def errDemoCatalog : Catalog :=
  { hardcols := [("Position", [1, 2, 3])]
    overrides := [("test", .hard [1, 1, 1])]
    sel := .all
    attrs := []
    localSize := 3 }

theorem misuse_error_kinds_witness :
    ((alookup errDemoCatalog.hardcols "Position").isSome = true
      ∧ getColDef errDemoCatalog "BAD_COLUMN" = none)
    ∧ (deleteColumn errDemoCatalog "Position"
        = .error .protectedColumn
      ∧ deleteColumn errDemoCatalog "BAD_COLUMN"
        = .error .missingColumn
      ∧ selectRows errDemoCatalog (.floats [0, 1, 2])
        = .error .invalidSelector
      ∧ getColumnE errDemoCatalog "BAD_COLUMN"
        = .error .missingColumn) :=
  ⟨⟨by decide, by decide⟩,
   misuse_error_kinds errDemoCatalog "Position" "BAD_COLUMN" [0, 1, 2]
     (by decide) (by decide)⟩

/-- Embedded from src/nbodykit/source/catalog/file.py: the broadcast
FileStack the catalog reads from — its column schema (dtype.names with
each column's full data, as get_dask returns it) and its total size. -/
structure FileStack where
  cols : List (String × List Int)
  size : Nat
deriving DecidableEq, Repr

/-- Embedded from file.py FileCatalogBase: the file-backed catalog — the
FileStack source plus the communicator's rank and size. -/
structure FileCatalog where
  source : FileStack
  commRank : Nat
  commSize : Nat
deriving DecidableEq, Repr

/-- Embedded from file.py FileCatalogBase.get_hardcolumn: a column in the
file's schema is returned as the rank's partition slice of the full dask
column (get_dask(col)[start:end]); any other name falls through to the
base-class lookup, which (modelled from the spec, section 4.3) fails with
the AttributeError-class probe error. -/
def get_hardcolumn (fc : FileCatalog) (col : String) :
    Except CatalogError (List Int) :=
  match alookup fc.source.cols col with
  | some d =>
    .ok ((d.drop (fc.commRank * fc.source.size / fc.commSize)).take
      ((fc.commRank + 1) * fc.source.size / fc.commSize
        - fc.commRank * fc.source.size / fc.commSize))
  | none => .error .attributeProbe

/-- C8. Hard-column probe error is distinct: get_hardcolumn on a name
that is not hard-backed fails with the AttributeError-class probe error,
a general column read of an absent name fails with the
MissingColumnError-class error, and the two error kinds are distinct, so
a caller can tell a hard-column probe failure from an ordinary
missing-column access. -/
theorem hardcolumn_probe_error_distinct (fc : FileCatalog) (c : Catalog)
    (name1 name2 : String)
    (h1 : alookup fc.source.cols name1 = none)
    (h2 : getColDef c name2 = none) :
    get_hardcolumn fc name1 = .error .attributeProbe
    ∧ getColumnE c name2 = .error .missingColumn
    ∧ CatalogError.attributeProbe ≠ CatalogError.missingColumn := by
  refine ⟨?_, ?_, by decide⟩
  · simp [get_hardcolumn, h1]
  · simp [getColumnE, h2]

/-- Concrete file catalog used to witness C8. -/
def fileDemoCatalog : FileCatalog :=
  { source := { cols := [("Position", [1, 2, 3, 4])], size := 4 }
    commRank := 0
    commSize := 2 }

theorem hardcolumn_probe_error_distinct_witness :
    (alookup fileDemoCatalog.source.cols "BAD_COLUMN" = none
      ∧ getColDef errDemoCatalog "BAD_COLUMN2" = none)
    ∧ (get_hardcolumn fileDemoCatalog "BAD_COLUMN"
        = .error .attributeProbe
      ∧ getColumnE errDemoCatalog "BAD_COLUMN2"
        = .error .missingColumn
      ∧ CatalogError.attributeProbe ≠ CatalogError.missingColumn) :=
  ⟨⟨by decide, by decide⟩,
   hardcolumn_probe_error_distinct fileDemoCatalog errDemoCatalog
     "BAD_COLUMN" "BAD_COLUMN2" (by decide) (by decide)⟩

/-- Modelled from the spec: tokens of the textual structured encoding
(JSON-like) used for non-array attrs values alongside the binary column
data (section 6). -/
inductive JTok where
  | key (s : String)
  | jnull
  | jint (n : Int)
  | jstr (s : String)
deriving DecidableEq, Repr

/-- Modelled from the spec: serializing attrs to the textual encoding;
a null-valued entry becomes an explicit null token. -/
def encodeAttrs : List (String × AttrVal) → List JTok
  | [] => []
  | (k, AttrVal.null) :: rest => .key k :: .jnull :: encodeAttrs rest
  | (k, AttrVal.int n) :: rest => .key k :: .jint n :: encodeAttrs rest
  | (k, AttrVal.str s) :: rest => .key k :: .jstr s :: encodeAttrs rest

/-- Modelled from the spec: parsing the textual encoding back into attrs;
fails on malformed input. -/
def decodeAttrs : List JTok → Option (List (String × AttrVal))
  | [] => some []
  | .key k :: .jnull :: rest =>
    (decodeAttrs rest).map (fun l => (k, AttrVal.null) :: l)
  | .key k :: .jint n :: rest =>
    (decodeAttrs rest).map (fun l => (k, AttrVal.int n) :: l)
  | .key k :: .jstr s :: rest =>
    (decodeAttrs rest).map (fun l => (k, AttrVal.str s) :: l)
  | _ => none

theorem decode_encode (ats : List (String × AttrVal)) :
    decodeAttrs (encodeAttrs ats) = some ats := by
  induction ats with
  | nil => rfl
  | cons p rest ih =>
    obtain ⟨k, v⟩ := p
    cases v <;> simp [encodeAttrs, decodeAttrs, ih]

/-- Modelled from the spec: the slice of a gathered column one rank
writes, using the partition rule embedded from file.py. -/
def rankPart (d : List Int) (r nr : Nat) : List Int :=
  (d.drop (partition d.length r nr).1).take
    ((partition d.length r nr).2 - (partition d.length r nr).1)

/-- Modelled from the spec: gathering the per-rank slices back in rank
order (the allgather + concatenate of the save test). -/
def gatherRanks (d : List Int) (nr : Nat) : List Int :=
  (List.range nr).foldr (fun r acc => rankPart d r nr ++ acc) []

theorem gather_range' (d : List Int) (nr : Nat) (hnr : 0 < nr) :
    ∀ (m k : Nat), k + m = nr →
      (List.range' k m).foldr (fun r acc => rankPart d r nr ++ acc) []
        = d.drop (partition d.length k nr).1 := by
  intro m
  induction m with
  | zero =>
    intro k hk
    have hk' : k = nr := by omega
    subst hk'
    simp [partition, Nat.mul_div_cancel_left d.length hnr]
  | succ m ih =>
    intro k hk
    rw [List.range'_succ]
    simp only [List.foldr_cons]
    rw [ih (k + 1) (by omega)]
    have hmono : (partition d.length k nr).1
        ≤ (partition d.length (k + 1) nr).1 :=
      partition_start_mono (Nat.le_succ k)
    have key : ∀ (l : List Int) (a b : Nat), a ≤ b →
        (l.drop a).take (b - a) ++ l.drop b = l.drop a := by
      intro l a b hab
      have h2 : l.drop b = (l.drop a).drop (b - a) := by
        rw [List.drop_drop, Nat.add_sub_cancel' hab]
      rw [h2, List.take_append_drop]
    exact key d _ _ hmono

theorem gatherRanks_eq (d : List Int) (nr : Nat) (hnr : 0 < nr) :
    gatherRanks d nr = d := by
  unfold gatherRanks
  rw [List.range_eq_range', gather_range' d nr hnr nr 0 (by omega)]
  simp [partition]

theorem evalRows_hard_range' (d : List Int) :
    ∀ (m j : Nat), j + m ≤ d.length →
      evalRows (.hard d) (List.range' j m) = some ((d.drop j).take m) := by
  intro m
  induction m with
  | zero => intro j h; simp [evalRows]
  | succ m ih =>
    intro j h
    have hj : j < d.length := by omega
    simp only [List.range'_succ, evalRows, evalRow,
      List.getElem?_eq_getElem hj, ih (j + 1) (by omega)]
    rw [List.drop_eq_getElem_cons hj, List.take_succ_cons]

theorem evalRows_hard_self (d : List Int) :
    evalRows (.hard d) (List.range d.length) = some d := by
  rw [List.range_eq_range', evalRows_hard_range' d d.length 0 (by omega)]
  simp

/-- Modelled from the spec: what save() writes — the gathered column data
for the selected column names, and the attrs serialized to the textual
encoding (including null entries). -/
structure SavedFile where
  cols : List (String × List Int)
  attrsEnc : List JTok
deriving DecidableEq, Repr

/-- Modelled from the spec: materializing and gathering the named columns
for saving; fails if any column fails to compute. -/
def saveCols (c : Catalog) (nr : Nat) :
    List String → Option (List (String × List Int))
  | [] => some []
  | n :: rest =>
    match computeCol c n, saveCols c nr rest with
    | some d, some cs => some ((n, gatherRanks d nr) :: cs)
    | _, _ => none

/-- Modelled from the spec: save() over nr cooperating ranks. -/
def saveCatalog (c : Catalog) (names : List String) (nr : Nat) :
    Option SavedFile :=
  match saveCols c nr names with
  | some cols => some { cols := cols, attrsEnc := encodeAttrs c.attrs }
  | none => none

/-- The row count the loaded catalog infers from the saved columns. -/
def colsLen : List (String × List Int) → Nat
  | [] => 0
  | (_, d) :: _ => d.length

/-- Modelled from the spec: loading saved data as a new catalog — the
saved columns become hard columns and the attrs are parsed back from the
textual encoding. -/
def loadCatalog (f : SavedFile) : Option Catalog :=
  match decodeAttrs f.attrsEnc with
  | some ats => some
      { hardcols := f.cols
        overrides := []
        sel := .all
        attrs := ats
        localSize := colsLen f.cols }
  | none => none

theorem computeCol_length {c : Catalog} {name : String} {out : List Int}
    (h : computeCol c name = some out) :
    out.length = (selIdx c.sel c.localSize).length := by
  revert h
  unfold computeCol
  cases getColDef c name with
  | none => intro h; cases h
  | some e => exact fun h => evalRows_length h

theorem saveCols_lookup {c : Catalog} {nr : Nat} (hnr : 0 < nr) :
    ∀ {names : List String} {cols : List (String × List Int)},
      saveCols c nr names = some cols →
      ∀ name ∈ names, ∃ d, alookup cols name = some d
        ∧ computeCol c name = some d := by
  intro names
  induction names with
  | nil => intro cols h name hname; cases hname
  | cons n rest ih =>
    intro cols h name hname
    revert h
    simp only [saveCols]
    cases hd : computeCol c n with
    | none => intro h; cases h
    | some d =>
      cases hcs : saveCols c nr rest with
      | none => intro h; cases h
      | some cs =>
        intro h
        cases h
        rcases List.mem_cons.mp hname with hn | hn
        · subst hn
          refine ⟨d, ?_, hd⟩
          simp [alookup, gatherRanks_eq d nr hnr]
        · by_cases heq : n = name
          · subst heq
            refine ⟨d, ?_, hd⟩
            simp [alookup, gatherRanks_eq d nr hnr]
          · obtain ⟨d2, hl2, hc2⟩ := ih hcs name hn
            exact ⟨d2, by simp [alookup, heq, hl2], hc2⟩

theorem saveCols_lengths {c : Catalog} {nr : Nat} (hnr : 0 < nr) :
    ∀ {names : List String} {cols : List (String × List Int)},
      saveCols c nr names = some cols →
      ∀ p ∈ cols, p.2.length = (selIdx c.sel c.localSize).length := by
  intro names
  induction names with
  | nil =>
    intro cols h p hp
    cases h
    cases hp
  | cons n rest ih =>
    intro cols h p hp
    revert h
    simp only [saveCols]
    cases hd : computeCol c n with
    | none => intro h; cases h
    | some d =>
      cases hcs : saveCols c nr rest with
      | none => intro h; cases h
      | some cs =>
        intro h
        cases h
        rcases List.mem_cons.mp hp with hn | hn
        · subst hn
          rw [gatherRanks_eq d nr hnr]
          exact computeCol_length hd
        · exact ih hcs p hn

/-- C7. Round-trip persistence: saving a catalog's columns (gathered in
rank order across the cooperating processes) together with its attrs —
including a null-valued entry — and reloading reproduces, for every saved
column name, column data elementwise identical to the original compute(),
and attrs with identical keys and values, the null-valued entry
included. -/
theorem save_load_roundtrip (c : Catalog) (names : List String) (nr : Nat)
    (f : SavedFile) (c2 : Catalog) (hnr : 0 < nr)
    (hs : saveCatalog c names nr = some f)
    (hl : loadCatalog f = some c2) :
    (∀ name ∈ names, computeCol c2 name = computeCol c name)
    ∧ c2.attrs = c.attrs
    ∧ (∀ k, (k, AttrVal.null) ∈ c.attrs → (k, AttrVal.null) ∈ c2.attrs) := by
  revert hs
  unfold saveCatalog
  cases hcols : saveCols c nr names with
  | none => intro hs; cases hs
  | some cols =>
    intro hs
    cases hs
    rw [loadCatalog] at hl
    simp only [decode_encode] at hl
    cases hl
    refine ⟨?_, rfl, fun k hk => hk⟩
    intro name hname
    obtain ⟨d, hlook, hcomp⟩ := saveCols_lookup hnr hcols name hname
    have hlen : colsLen cols = d.length := by
      cases cols with
      | nil => cases hlook
      | cons p cs =>
        have hp := saveCols_lengths hnr hcols p (List.mem_cons_self p cs)
        have hd := computeCol_length hcomp
        simp only [colsLen]
        omega
    rw [hcomp]
    simp only [computeCol, getColDef, alookup, hlook]
    simp only [Option.map]
    show evalRows (.hard d) (selIdx Selection.all (colsLen cols)) = some d
    rw [show selIdx Selection.all (colsLen cols)
        = List.range (colsLen cols) from rfl]
    rw [hlen]
    exact evalRows_hard_self d

/-- Concrete catalog (with a null-valued attrs entry) used to witness the
save/load round trip. -/
def saveDemoCatalog : Catalog :=
  { hardcols := [("Position", [1, 2, 3])]
    overrides := []
    sel := .all
    attrs := [("empty", AttrVal.null), ("BoxSize", AttrVal.int 1024)]
    localSize := 3 }

/-- The file saveDemoCatalog saves to over 2 ranks. -/
def saveDemoFile : SavedFile :=
  { cols := [("Position", [1, 2, 3])]
    attrsEnc := [.key "empty", .jnull, .key "BoxSize", .jint 1024] }

/-- The catalog obtained by loading saveDemoFile. -/
def saveDemoLoaded : Catalog :=
  { hardcols := [("Position", [1, 2, 3])]
    overrides := []
    sel := .all
    attrs := [("empty", AttrVal.null), ("BoxSize", AttrVal.int 1024)]
    localSize := 3 }

theorem save_load_roundtrip_witness :
    (0 < 2
      ∧ saveCatalog saveDemoCatalog ["Position"] 2 = some saveDemoFile
      ∧ loadCatalog saveDemoFile = some saveDemoLoaded)
    ∧ ((∀ name ∈ ["Position"],
          computeCol saveDemoLoaded name = computeCol saveDemoCatalog name)
      ∧ saveDemoLoaded.attrs = saveDemoCatalog.attrs
      ∧ (∀ k, (k, AttrVal.null) ∈ saveDemoCatalog.attrs →
          (k, AttrVal.null) ∈ saveDemoLoaded.attrs)) :=
  ⟨⟨by decide, by decide, by decide⟩,
   save_load_roundtrip saveDemoCatalog ["Position"] 2 saveDemoFile
     saveDemoLoaded (by decide) (by decide) (by decide)⟩

/-- Modelled from the spec: a value handed to a transform builder or to
set() — either a lazy array produced by the recognized lazy-array builder
(it carries the composability marker and its expression snapshot), or a
raw in-memory already-computed array, which lacks the marker. -/
inductive LazyValue where
  | lazy (e : Expr)
  | raw (xs : List Int)
deriving DecidableEq, Repr

/-- Whether a value carries the lazy-composability marker (was produced
by the recognized lazy-array builder). -/
def LazyValue.hasMarker : LazyValue → Bool
  | .lazy _ => true
  | .raw _ => false

/-- Modelled from the spec: a transform builder extracting the expression
snapshots of its arguments; any argument lacking the lazy-composability
marker makes the whole construction fail with the IncompatibleValueError
(requires-dask-array) class. -/
def requireLazyArgs : List LazyValue → Except CatalogError (List Expr)
  | [] => .ok []
  | .lazy e :: rest =>
    match requireLazyArgs rest with
    | .ok es => .ok (e :: es)
    | .error err => .error err
  | .raw _ :: _ => .error .incompatibleValue

/-- Elementwise combination of the transform's operand snapshots (the
vstack/SkyToCartesian-style combination reduced to one row value). -/
def sumExprs : List Expr → Expr
  | [] => .hard []
  | [e] => e
  | e :: rest => .add e (sumExprs rest)

/-- Modelled from the spec: assigning to a catalog column a value built by
a transform from the given arguments — the build fails with
IncompatibleValueError if any argument lacks the lazy marker, otherwise
the combined snapshot is stored. -/
def assignTransformed (c : Catalog) (name : String) (args : List LazyValue) :
    Except CatalogError Catalog :=
  match requireLazyArgs args with
  | .ok es => .ok (setColumn c name (sumExprs es))
  | .error err => .error err

/-- C9. Lazy-marker rejection: assigning to a column a value built from
arguments of which any one is a raw in-memory array lacking the
lazy-composability marker fails with the IncompatibleValueError
(requires dask array) class, for every such non-lazy input; the same
assignment built entirely from lazy column handles succeeds. -/
theorem lazy_marker_rejection (c : Catalog) (name : String)
    (args : List LazyValue) :
    ((∃ a ∈ args, a.hasMarker = false) →
      assignTransformed c name args = .error .incompatibleValue)
    ∧ ((∀ a ∈ args, a.hasMarker = true) →
      ∃ c2, assignTransformed c name args = .ok c2) := by
  constructor
  · intro ⟨a, hmem, hraw⟩
    have hkey : requireLazyArgs args = .error .incompatibleValue := by
      induction args with
      | nil => cases hmem
      | cons b rest ih =>
        rcases List.mem_cons.mp hmem with hb | hb
        · subst hb
          cases a with
          | lazy e => simp [LazyValue.hasMarker] at hraw
          | raw xs => rfl
        · cases b with
          | lazy e => simp [requireLazyArgs, ih hb]
          | raw xs => rfl
    simp [assignTransformed, hkey]
  · intro hall
    have hkey : ∃ es, requireLazyArgs args = .ok es := by
      induction args with
      | nil => exact ⟨[], rfl⟩
      | cons b rest ih =>
        obtain ⟨es, hes⟩ :=
          ih (fun a ha => hall a (List.mem_cons_of_mem b ha))
        cases b with
        | lazy e => exact ⟨e :: es, by simp [requireLazyArgs, hes]⟩
        | raw xs =>
          have := hall (.raw xs) (List.mem_cons_self _ _)
          simp [LazyValue.hasMarker] at this
    obtain ⟨es, hes⟩ := hkey
    exact ⟨setColumn c name (sumExprs es), by simp [assignTransformed, hes]⟩

/-- Concrete argument lists used to witness C9. -/
def rawArgsDemo : List LazyValue := [.lazy (.hard [1, 2]), .raw [3, 4]]

/-- All-lazy argument list used to witness C9. -/
def lazyArgsDemo : List LazyValue := [.lazy (.hard [1, 2]), .lazy (.hard [3, 4])]

theorem lazy_marker_rejection_witness :
    ((∃ a ∈ rawArgsDemo, a.hasMarker = false)
      ∧ assignTransformed errDemoCatalog "Position1" rawArgsDemo
          = .error .incompatibleValue)
    ∧ ((∀ a ∈ lazyArgsDemo, a.hasMarker = true)
      ∧ ∃ c2, assignTransformed errDemoCatalog "Position1" lazyArgsDemo
          = .ok c2) :=
  ⟨⟨by decide,
    (lazy_marker_rejection errDemoCatalog "Position1" rawArgsDemo).1
      (by decide)⟩,
   ⟨by decide,
    (lazy_marker_rejection errDemoCatalog "Position1" lazyArgsDemo).2
      (by decide)⟩⟩

/-- Modelled from the spec: the value a Python expression over a column
hands around — a live ColumnAccessor still bound to a catalog column, or
a plain lazy array with no catalog linkage. -/
inductive PyValue where
  | accessor (name : String) (e : Expr)
  | plainArr (e : Expr)
deriving DecidableEq, Repr

/-- Whether the value is still a ColumnAccessor. -/
def PyValue.isAccessor : PyValue → Bool
  | .accessor _ _ => true
  | .plainArr _ => false

/-- The expression snapshot a value carries. -/
def PyValue.exprOf : PyValue → Expr
  | .accessor _ e => e
  | .plainArr e => e

/-- Modelled from the spec: column lookup as a Python value — a live
accessor wrapping the stored definition. -/
def pyGetColumn (c : Catalog) (name : String) : Option PyValue :=
  (getColDef c name).map (fun e => .accessor name e)

/-- Modelled from the spec: arithmetic on a handle produces a plain lazy
array — the result has transformed, so it is no longer a ColumnAccessor
and carries no catalog linkage. -/
def scaleValue (v : PyValue) (k : Int) : PyValue :=
  .plainArr (.scale k v.exprOf)

/-- Modelled from the spec: the desugaring of catalog[name] *= k —
getitem, arithmetic, then setitem stores the scaled snapshot back under
the name. -/
def imulColumn (c : Catalog) (name : String) (k : Int) : Catalog :=
  match getColDef c name with
  | some e => setColumn c name (.scale k e)
  | none => c

/-- Modelled from the spec: the desugaring of v *= k for a bare local
variable — only the variable is rebound to the arithmetic result; no
setitem runs, so the catalog is untouched. -/
def imulLocal (st : Catalog × PyValue) (k : Int) : Catalog × PyValue :=
  (st.1, scaleValue st.2 k)

theorem getColDef_setColumn_self (c : Catalog) (name : String) (e2 : Expr) :
    getColDef (setColumn c name e2) name = some e2 := by
  simp [getColDef, setColumn, alookup_aset_self]

theorem evalRows_scale (k : Int) (e : Expr) :
    ∀ (is : List Nat), evalRows (.scale k e) is
      = (evalRows e is).map (List.map (fun x => k * x)) := by
  intro is
  induction is with
  | nil => rfl
  | cons i t ih =>
    cases hx : evalRow e i <;> cases ht : evalRows e t <;>
      simp [evalRows, evalRow, hx, ht, ih]

/-- C10. In-place augmented assignment writes back: catalog[name] *= k
updates the stored column, so every subsequent read returns the scaled
values; the same arithmetic applied to an accessor bound to a local
variable rebinds the variable to a plain lazy array (no longer a
ColumnAccessor) and leaves the stored column unchanged. -/
theorem inplace_augmented_assignment (c : Catalog) (name : String)
    (k : Int) (data : List Int) (v : PyValue)
    (hv : pyGetColumn c name = some v)
    (h : computeCol c name = some data) :
    computeCol (imulColumn c name k) name
      = some (data.map (fun x => k * x))
    ∧ (scaleValue v k).isAccessor = false
    ∧ computeCol (imulLocal (c, v) k).1 name = some data := by
  have hdef : ∃ e, getColDef c name = some e := by
    cases hg : getColDef c name with
    | none =>
      exfalso
      simp only [computeCol, hg] at h
      exact Option.noConfusion h
    | some e => exact ⟨e, rfl⟩
  obtain ⟨e, hdef⟩ := hdef
  have hrows : evalRows e (selIdx c.sel c.localSize) = some data := by
    simpa only [computeCol, hdef] using h
  have hv' : v = .accessor name e := by
    simp only [pyGetColumn, hdef, Option.map] at hv
    exact (Option.some_inj.mp hv).symm
  subst hv'
  refine ⟨?_, rfl, h⟩
  simp only [imulColumn, hdef]
  simp only [computeCol, getColDef_setColumn_self]
  show evalRows (.scale k e) (selIdx c.sel c.localSize)
    = some (data.map (fun x => k * x))
  rw [evalRows_scale, hrows]
  rfl

/-- Concrete catalog used to witness C10. -/
def imulDemoCatalog : Catalog :=
  { hardcols := [("Position", [2, 5, 7])]
    overrides := []
    sel := .all
    attrs := []
    localSize := 3 }

theorem inplace_augmented_assignment_witness :
    (pyGetColumn imulDemoCatalog "Position"
        = some (.accessor "Position" (.hard [2, 5, 7]))
      ∧ computeCol imulDemoCatalog "Position" = some [2, 5, 7])
    ∧ (computeCol (imulColumn imulDemoCatalog "Position" 10) "Position"
        = some ([2, 5, 7].map (fun x => 10 * x))
      ∧ (scaleValue (.accessor "Position" (.hard [2, 5, 7])) 10).isAccessor
        = false
      ∧ computeCol
          (imulLocal (imulDemoCatalog,
            .accessor "Position" (.hard [2, 5, 7])) 10).1 "Position"
        = some [2, 5, 7]) :=
  ⟨⟨by decide, by decide⟩,
   inplace_augmented_assignment imulDemoCatalog "Position" 10 [2, 5, 7]
     (.accessor "Position" (.hard [2, 5, 7])) (by decide) (by decide)⟩

theorem assignment_snapshot_fixed_point_witness :
    ∃ c : Catalog, transformScenario 4 = some c ∧
      computeCol c "Position" = some (List.replicate 4 3) :=
  assignment_snapshot_fixed_point 4
